import Mathlib

/-!
Verification development for the hornpub-runner repository.

The runner's numeric code operates on JavaScript numbers.  We embed them as
an extended-rational type `JNum`: a finite value (exact rational), `nan`,
and the two infinities, with the IEEE-754 special-value propagation rules of
JS arithmetic (`NaN` absorbs, `∞ - ∞ = NaN`, comparisons with `NaN` are
false, `Number.isFinite` holds only for finite values).  Finite arithmetic
is exact rather than rounded; every property proved here depends only on
special-value propagation, definedness, lengths and orderings, not on
rounding of finite results.

Sources embedded below (file and line references are to the repository):
- src/src/indicators/math.ts        (math kernel: sma, ema, wma, rsi, atr,
                                     macdLatest, bbandsLatest, crossUp,
                                     crossDown, last2Defined, lastFinite)
- src/src/klines/KlineCache.ts      (KlineSeries, preload, constructor cap)
- src/unnamed/part_000              (createIndicators: memoised engine ops)
- src/src/engine/Sandbox.ts         (PaperBroker buy/sell)
- src/src/index.ts                  (HP facade argument handling)
-/

/-- JavaScript number, idealised: exact rationals plus NaN and ±Infinity. -/
inductive JNum where
  | num (q : ℚ)
  | nan
  | inf
  | ninf
deriving DecidableEq

namespace JNum

/-- JS unary negation. -/
def jneg : JNum → JNum
  | .num q => .num (-q)
  | .nan => .nan
  | .inf => .ninf
  | .ninf => .inf

/-- JS addition. -/
def jadd : JNum → JNum → JNum
  | .num a, .num b => .num (a + b)
  | .nan, _ => .nan
  | _, .nan => .nan
  | .inf, .ninf => .nan
  | .ninf, .inf => .nan
  | .inf, _ => .inf
  | _, .inf => .inf
  | .ninf, _ => .ninf
  | _, .ninf => .ninf

/-- JS subtraction. -/
def jsub (a b : JNum) : JNum := jadd a (jneg b)

/-- JS multiplication. -/
def jmul : JNum → JNum → JNum
  | .num a, .num b => .num (a * b)
  | .nan, _ => .nan
  | _, .nan => .nan
  | .inf, .inf => .inf
  | .inf, .ninf => .ninf
  | .ninf, .inf => .ninf
  | .ninf, .ninf => .inf
  | .inf, .num b => if b = 0 then .nan else if 0 < b then .inf else .ninf
  | .num a, .inf => if a = 0 then .nan else if 0 < a then .inf else .ninf
  | .ninf, .num b => if b = 0 then .nan else if 0 < b then .ninf else .inf
  | .num a, .ninf => if a = 0 then .nan else if 0 < a then .ninf else .inf

/-- JS division (sign of zero not modelled: x/0 with x > 0 gives +∞). -/
def jdiv : JNum → JNum → JNum
  | .num a, .num b =>
      if b = 0 then (if a = 0 then .nan else if 0 < a then .inf else .ninf)
      else .num (a / b)
  | .nan, _ => .nan
  | _, .nan => .nan
  | .inf, .inf => .nan
  | .inf, .ninf => .nan
  | .ninf, .inf => .nan
  | .ninf, .ninf => .nan
  | .num _, .inf => .num 0
  | .num _, .ninf => .num 0
  | .inf, .num b => if 0 ≤ b then .inf else .ninf
  | .ninf, .num b => if 0 ≤ b then .ninf else .inf

/-- JS `<` (false whenever an operand is NaN). -/
def jlt : JNum → JNum → Bool
  | .num a, .num b => a < b
  | .nan, _ => false
  | _, .nan => false
  | .inf, _ => false
  | .ninf, .ninf => false
  | .ninf, _ => true
  | .num _, .inf => true
  | .num _, .ninf => false

/-- JS `≤` (false whenever an operand is NaN). -/
def jle : JNum → JNum → Bool
  | .num a, .num b => a ≤ b
  | .nan, _ => false
  | _, .nan => false
  | .inf, .inf => true
  | .inf, _ => false
  | .ninf, _ => true
  | .num _, .inf => true
  | .num _, .ninf => false

/-- JS `>` . -/
def jgt (a b : JNum) : Bool := jlt b a

/-- JS `≥` . -/
def jge (a b : JNum) : Bool := jle b a

/-- JS strict equality `===` on numbers (NaN === x is false). -/
def jseq : JNum → JNum → Bool
  | .num a, .num b => a = b
  | .inf, .inf => true
  | .ninf, .ninf => true
  | _, _ => false

/-- `Number.isFinite`. -/
def jIsFinite : JNum → Bool
  | .num _ => true
  | _ => false

/-- JS truthiness of a number (`!x` is true exactly for 0 and NaN). -/
def jsTruthy : JNum → Bool
  | .num q => q ≠ 0
  | .nan => false
  | _ => true

/-- `Math.abs`. -/
def jabs : JNum → JNum
  | .num q => .num |q|
  | .nan => .nan
  | .inf => .inf
  | .ninf => .inf

/-- `Math.max` of two numbers (NaN-propagating). -/
def jmax : JNum → JNum → JNum
  | .nan, _ => .nan
  | _, .nan => .nan
  | .inf, _ => .inf
  | _, .inf => .inf
  | .ninf, b => b
  | a, .ninf => a
  | .num a, .num b => .num (max a b)

/-- `Math.min` of two numbers (NaN-propagating). -/
def jmin : JNum → JNum → JNum
  | .nan, _ => .nan
  | _, .nan => .nan
  | .ninf, _ => .ninf
  | _, .ninf => .ninf
  | .inf, b => b
  | a, .inf => a
  | .num a, .num b => .num (min a b)

/-- Finite payload (meaningful only under `jIsFinite`). -/
def toQ : JNum → ℚ
  | .num q => q
  | _ => 0

end JNum

open JNum

/-- Window coercion `Math.max(1, Math.floor(n))` applied by wma/rsi/atr/bbands
(math.ts lines 53, 83, 117, 190) to a finite period. -/
def coerceN (period : ℚ) : ℕ := (max 1 ⌊period⌋).toNat

/-! ## Math kernel (src/src/indicators/math.ts)

Kernel periods are JS numbers; we model them as finite rationals (the
engine always passes finite values).  Loop indices are naturals; the JS
comparisons `i >= period`, `i === period - 1` … become mixed ℕ/ℚ
comparisons, reproducing the behaviour on non-integer periods. -/

/-- JS array read `l[q]` at a possibly fractional index: `some` element when
`q` is an in-range integer, otherwise `none` (JS `undefined`). -/
def ratIdx (l : List JNum) (q : ℚ) : Option JNum :=
  if q.den = 1 ∧ 0 ≤ q.num ∧ q.num < l.length then l.getD q.num.toNat .nan |> some
  else none

/-- One step of sma's rolling sum (math.ts lines 6-7): add `values[i]`, and
once `i >= period` subtract `values[i - period]`; subtracting an undefined
read (fractional or out-of-range index) yields NaN exactly as in JS. -/
def smaStep (values : List JNum) (period : ℚ) (i : ℕ) (sum : JNum) : JNum :=
  let s1 := jadd sum (values.getD i .nan)
  if period ≤ (i : ℚ) then
    match ratIdx values ((i : ℚ) - period) with
    | some w => jsub s1 w
    | none => .nan
  else s1

/-- Rolling sum of `sma` after the loop body for index `i` has run. -/
def smaSum (values : List JNum) (period : ℚ) : ℕ → JNum
  | 0 => smaStep values period 0 (.num 0)
  | i + 1 => smaStep values period (i + 1) (smaSum values period i)

/-- `sma(values, period)` (math.ts lines 1-11): `[]` when `period <= 0`,
otherwise an array of the input's length, NaN below index `period - 1` and
the rolling sum divided by `period` from there on. -/
def sma (values : List JNum) (period : ℚ) : List JNum :=
  if period ≤ 0 then []
  else
    (List.range values.length).map fun (i : ℕ) =>
      if period - 1 ≤ (i : ℚ) then jdiv (smaSum values period i) (.num period) else .nan

/-- First pass of `ema` (math.ts lines 19-36).  `i` is the loop index, `sum`
the finite seed accumulator, `prev` the entry written at `i - 1` — in every
branch the recursion receives exactly the entry just emitted, so `prev` is
always the current `out[i-1]`, including the NaN left by a skipped non-finite
value (NaN also stands for the out-of-range read `out[-1]`, which JS turns
into NaN arithmetic anyway). -/
def emaPass1go (period k : ℚ) : List JNum → ℕ → ℚ → JNum → List JNum
  | [], _, _, _ => []
  | v :: rest, i, sum, prev =>
    match v with
    | .num q =>
      if (i : ℚ) < period then
        let sum1 := sum + q
        let entry := if (i : ℚ) = period - 1 then JNum.num (sum1 / period) else JNum.nan
        entry :: emaPass1go period k rest (i + 1) sum1 entry
      else
        -- covers both the `i === period` seed use and the general update:
        -- out[i] = (v - out[i-1]) * k + out[i-1]
        let entry := jadd (jmul (jsub v prev) (.num k)) prev
        entry :: emaPass1go period k rest (i + 1) sum entry
    | _ =>
      -- !Number.isFinite(v): continue, leaving out[i] = NaN; the next
      -- iteration's out[i-1] read sees that NaN
      JNum.nan :: emaPass1go period k rest (i + 1) sum .nan

/-- `out.findIndex(Number.isFinite)` (math.ts line 40). -/
def findIdxFinite : List JNum → Option ℕ
  | [] => none
  | v :: rest => if jIsFinite v then some 0 else (findIdxFinite rest).map (fun i => i + 1)

/-- Second pass of `ema` (math.ts lines 40-48), rebuilding the array from
index `first + 1` on: `prev` is the current `out[i-1]`. -/
def emaPass2go (k : ℚ) : List (JNum × JNum) → JNum → List JNum
  | [], _ => []
  | (v, o) :: rest, prev =>
    let cur := if jIsFinite v && jIsFinite prev
      then jadd (jmul (jsub v prev) (.num k)) prev else o
    cur :: emaPass2go k rest cur

/-- `ema(values, period)` (math.ts lines 13-50). -/
def ema (values : List JNum) (period : ℚ) : List JNum :=
  if period ≤ 0 then []
  else
    let k : ℚ := 2 / (period + 1)
    let out1 := emaPass1go period k values 0 0 .nan
    match findIdxFinite out1 with
    | none => out1
    | some first =>
      out1.take (first + 1) ++
        emaPass2go k ((values.drop (first + 1)).zip (out1.drop (first + 1)))
          (out1.getD first .nan)

/-- Weighted window sum of `wma` (math.ts lines 58-68): weights 1.., breaking
to NaN at the first non-finite value. -/
def wmaSum : List JNum → ℚ → JNum → JNum
  | [], _, sum => sum
  | v :: rest, w, sum =>
    if jIsFinite v then wmaSum rest (w + 1) (jadd sum (jmul v (.num w)))
    else .nan

/-- `wma(values, period)` (math.ts lines 52-72).  The source's
`if (n <= 0) return []` is dead code since `n = max(1, floor(period)) ≥ 1`. -/
def wma (values : List JNum) (period : ℚ) : List JNum :=
  let n := coerceN period
  let denom : ℚ := (n * (n + 1)) / 2
  (List.range values.length).map fun i =>
    if n ≤ i + 1 then
      let s := wmaSum ((values.drop (i + 1 - n)).take n) 1 (.num 0)
      if jIsFinite s then jdiv s (.num denom) else .nan
    else .nan

/-- Seed accumulation of `rsi` (math.ts lines 86-92) over the first `n`
diffs: `if (diff >= 0) gain += diff; else loss -= diff`. -/
def rsiSeed : List JNum → JNum × JNum → JNum × JNum
  | [], gl => gl
  | d :: rest, (g, l) =>
    if jge d (.num 0) then rsiSeed rest (jadd g d, l)
    else rsiSeed rest (g, jsub l d)

/-- Wilder update of `rsi` (math.ts lines 100-105) for one diff. -/
def rsiStep (n : ℚ) (avgs : JNum × JNum) (d : JNum) : JNum × JNum :=
  let g := if jgt d (.num 0) then d else .num 0
  let l := if jlt d (.num 0) then jneg d else .num 0
  (jdiv (jadd (jmul avgs.1 (.num (n - 1))) g) (.num n),
   jdiv (jadd (jmul avgs.2 (.num (n - 1))) l) (.num n))

/-- Final (avgGain, avgLoss) pair of `rsi`'s Wilder smoothing: seed averages
over the first `n` diffs, then one `rsiStep` per remaining diff. -/
def rsiAvgs (values : List JNum) (period : ℚ) : JNum × JNum :=
  let n := coerceN period
  let diffs := List.zipWith jsub values.tail values
  let seed := rsiSeed (diffs.take n) (.num 0, .num 0)
  (diffs.drop n).foldl (rsiStep (n : ℚ)) (jdiv seed.1 (.num (n : ℚ)), jdiv seed.2 (.num (n : ℚ)))

/-- `RSI = 100 - 100 / (1 + RS)` with `RS = avgLoss === 0 ? Infinity :
avgGain / avgLoss` (math.ts lines 97-98 and 106-107). -/
def rsiFromAvgs (avgGain avgLoss : JNum) : JNum :=
  let rs := if jseq avgLoss (.num 0) then JNum.inf else jdiv avgGain avgLoss
  jsub (.num 100) (jdiv (.num 100) (jadd (.num 1) rs))

/-- `rsi(values, period)` (math.ts lines 82-110), latest value only.  The
source recomputes `lastRsi` after every Wilder update; its final value is
`rsiFromAvgs` of the final averages. -/
def rsi (values : List JNum) (period : ℚ) : JNum :=
  let n := coerceN period
  if values.length < n + 1 then .nan
  else rsiFromAvgs (rsiAvgs values period).1 (rsiAvgs values period).2

/-- True range at index `i ≥ 1` (math.ts lines 125-128):
`max(h - l, |h - prevClose|, |l - prevClose|)`. -/
def trAt (highs lows closes : List JNum) (i : ℕ) : JNum :=
  let h := highs.getD i .nan
  let l := lows.getD i .nan
  let pc := closes.getD (i - 1) .nan
  jmax (jsub h l) (jmax (jabs (jsub h pc)) (jabs (jsub l pc)))

/-- `atr(highs, lows, closes, period)` (math.ts lines 116-141). -/
def atr (highs lows closes : List JNum) (period : ℚ) : JNum :=
  let n := coerceN period
  let len := min highs.length (min lows.length closes.length)
  if len < n + 1 then .nan
  else
    let seed := ((List.range n).map (fun m => trAt highs lows closes (m + 1))).foldl
      jadd (.num 0)
    ((List.range (len - (n + 1))).map (fun m => trAt highs lows closes (m + n + 1))).foldl
      (fun lastAtr tr => jdiv (jadd (jmul lastAtr (.num ((n : ℚ) - 1))) tr) (.num (n : ℚ)))
      (jdiv seed (.num (n : ℚ)))

/-- `lastFinite(series)` (math.ts lines 206-212): last finite value or NaN. -/
def lastFinite (series : List JNum) : JNum :=
  (series.reverse.find? (fun v => jIsFinite v)).getD .nan

/-- `last2Defined(series)` (math.ts lines 214-221): the pair at the largest
index `i ≥ 1` with both `series[i-1]` and `series[i]` finite.  The source
scans downward from the tail; this recursion prefers the rightmost pair. -/
def last2Defined : List JNum → Option (JNum × JNum)
  | a :: b :: rest =>
    match last2Defined (b :: rest) with
    | some p => some p
    | none => if jIsFinite a && jIsFinite b then some (a, b) else none
  | _ => none

/-- `crossUp(seriesA, seriesB)` (math.ts lines 144-149). -/
def crossUp (seriesA seriesB : List JNum) : Bool :=
  match last2Defined seriesA, last2Defined seriesB with
  | some a, some b => jle a.1 b.1 && jgt a.2 b.2
  | _, _ => false

/-- `crossDown(seriesA, seriesB)` (math.ts lines 152-157). -/
def crossDown (seriesA seriesB : List JNum) : Bool :=
  match last2Defined seriesA, last2Defined seriesB with
  | some a, some b => jge a.1 b.1 && jlt a.2 b.2
  | _, _ => false

/-- Whether a list contains two consecutive finite values. -/
def hasAdjFinite : List JNum → Bool
  | a :: b :: rest => (jIsFinite a && jIsFinite b) || hasAdjFinite (b :: rest)
  | _ => false

/-- Definition following the CLAIM's words (not the source): take the last
two indices at which BOTH series are finite and compare there; false when
fewer than two such common indices exist. -/
def commonFiniteIdx (a b : List JNum) : List ℕ :=
  (List.range (min a.length b.length)).filter fun i =>
    jIsFinite (a.getD i .nan) && jIsFinite (b.getD i .nan)

/-- Definition following the CLAIM's words (not the source); compare with
`crossUp`, which uses the last ADJACENT finite pair of EACH series
separately. -/
def crossUpClaim (a b : List JNum) : Bool :=
  let idx := commonFiniteIdx a b
  if 2 ≤ idx.length then
    let iprev := idx.getD (idx.length - 2) 0
    let icurr := idx.getD (idx.length - 1) 0
    jle (a.getD iprev .nan) (b.getD iprev .nan) &&
      jgt (a.getD icurr .nan) (b.getD icurr .nan)
  else false

/-- `macdLatest(values, fast, slow, signal)` (math.ts lines 167-183),
returned as the triple (macd, signal, histogram). -/
def macdLatest (values : List JNum) (fast slow sgnl : ℚ) : JNum × JNum × JNum :=
  let fastEma := ema values fast
  let slowEma := ema values slow
  let len := min fastEma.length slowEma.length
  if len = 0 then (.nan, .nan, .nan)
  else
    let macdLine := (List.range len).map fun i =>
      jsub (fastEma.getD i .nan) (slowEma.getD i .nan)
    let signalLine := ema macdLine sgnl
    let m := lastFinite macdLine
    let s := lastFinite signalLine
    (m, s, jsub m s)

/-- `Math.sqrt` on a JS number, with the finite square root abstracted as a
parameter `sqrtFn` (IEEE rounding of irrational square roots is outside the
rational model); `Math.sqrt` of a negative number is NaN. -/
def jsqrt (sqrtFn : ℚ → ℚ) : JNum → JNum
  | .num q => if q < 0 then .nan else .num (sqrtFn q)
  | .nan => .nan
  | .inf => .inf
  | .ninf => .nan

/-- `bbandsLatest(values, length, mult)` (math.ts lines 185-204), as the
triple (upper, middle, lower). -/
def bbandsLatest (sqrtFn : ℚ → ℚ) (values : List JNum) (length mult : ℚ) :
    JNum × JNum × JNum :=
  let n := coerceN length
  if values.length < n then (.nan, .nan, .nan)
  else
    let window := values.drop (values.length - n)
    let sum := window.foldl jadd (.num 0)
    let mean := jdiv sum (.num (n : ℚ))
    let varSum := window.foldl (fun acc v => jadd acc (jmul (jsub v mean) (jsub v mean)))
      (.num 0)
    let std := jsqrt sqrtFn (jdiv varSum (.num (n : ℚ)))
    let k : JNum := .num mult
    (jadd mean (jmul k std), mean, jsub mean (jmul k std))

/-! ## Series cache (src/src/klines/KlineCache.ts) -/

/-- The cached series type of src/src/klines/KlineCache.ts lines 5-11.  It
carries exactly TWO data arrays: open-times and closes. -/
structure KlineSeries where
  exchange : String
  symbol : String
  interval : String
  openTimes : List JNum
  closes : List JNum
deriving DecidableEq

/-- JS property read `series.opens` on a stored `KlineSeries`: the object has
no such field, so the read yields `undefined` (`none`). -/
def KlineSeries.opensProp (_ : KlineSeries) : Option (List JNum) := none

/-- JS property read `series.highs` on a stored `KlineSeries`: `undefined`. -/
def KlineSeries.highsProp (_ : KlineSeries) : Option (List JNum) := none

/-- JS property read `series.lows` on a stored `KlineSeries`: `undefined`. -/
def KlineSeries.lowsProp (_ : KlineSeries) : Option (List JNum) := none

/-- JS property read `series.volumes` on a stored `KlineSeries`: `undefined`. -/
def KlineSeries.volumesProp (_ : KlineSeries) : Option (List JNum) := none

/-- JS property read `series.closes`: present. -/
def KlineSeries.closesProp (s : KlineSeries) : Option (List JNum) := some s.closes

/-- `preload` (KlineCache.ts lines 41-81) after the store answered with
`data` (most-recent-first rows of `(open_time, close)`, already through
`Number(...)`): empty data stores an empty series, otherwise rows are
reversed to ascending order and split into the two parallel arrays. -/
def preloadSeries (exchange symbol interval : String) (data : List (JNum × JNum)) :
    KlineSeries :=
  if data = [] then ⟨exchange, symbol, interval, [], []⟩
  else
    let rows := data.reverse
    ⟨exchange, symbol, interval, rows.map (fun r => r.1), rows.map (fun r => r.2)⟩

/-- Constructor clamp `this.maxCandles = Math.max(50, opts.maxCandles ?? 5000)`
(KlineCache.ts line 26). -/
def cacheCap (optsMaxCandles : Option ℚ) : ℚ := max 50 (optsMaxCandles.getD 5000)

/-- Row limit requested from the store by `preload` (KlineCache.ts line 50):
`Math.max(50, Math.min(this.maxCandles, opts?.maxCandles ?? this.maxCandles))`. -/
def preloadLimit (cap : ℚ) (maxCandles : Option ℚ) : ℚ :=
  max 50 (min cap (maxCandles.getD cap))

/-! ## Paper broker (src/src/engine/Sandbox.ts, PaperBroker) -/

inductive PosStatus where
  | opened
  | closed
deriving DecidableEq

/-- The `project_positions` row relevant to the broker. -/
structure Position where
  qty : JNum
  entryPrice : JNum
  status : PosStatus
  exitPrice : Option JNum
  realizedPnl : Option JNum
deriving DecidableEq

/-- The broker's view of the ledger: the row for this (project, symbol). -/
def getOpenPosition (ledger : Option Position) : Option Position :=
  ledger.bind fun p => if p.status = .opened then some p else none

/-- `getMarkPrice` (Sandbox.ts lines 87-93): latest close if finite. -/
def getMarkPrice (closes : List JNum) : Option JNum :=
  match closes.getLast? with
  | none => none
  | some v => if jIsFinite v then some v else none

/-- The float literal `1e-12` of Sandbox.ts line 209, idealised as the exact
rational (the comparisons in the claims are unaffected). -/
def remEps : ℚ := 1 / 1000000000000

/-- `Number(pos.realized_pnl ?? 0) || 0` (Sandbox.ts line 233): a null or
falsy (0, NaN) stored value becomes 0. -/
def jsOr0 (v : Option JNum) : JNum :=
  match v with
  | none => .num 0
  | some x => if jsTruthy x then x else .num 0

/-- `PaperBroker.buy({usd})` (Sandbox.ts lines 123-171) acting on the ledger
row, with the mark price taken from `closes`.  All skip paths leave the
ledger unchanged.  (`if (!price)` also rejects a zero price: JS falsiness.) -/
def PaperBroker.buy (usd : JNum) (closes : List JNum) (ledger : Option Position) :
    Option Position :=
  if ¬ (jIsFinite usd && jgt usd (.num 0)) then ledger
  else match getOpenPosition ledger with
  | some _ => ledger
  | none =>
    match getMarkPrice closes with
    | none => ledger
    | some price =>
      if ¬ jsTruthy price then ledger
      else
        some ⟨jdiv usd price, price, .opened, none, none⟩

/-- `PaperBroker.sell({pct})` (Sandbox.ts lines 177-253).  A full close
(remaining ≤ 1e-12) SETS `realized_pnl` to this sell's PnL; a partial close
accumulates `prev + realized`. -/
def PaperBroker.sell (pct : JNum) (closes : List JNum) (ledger : Option Position) :
    Option Position :=
  if ¬ (jIsFinite pct && jgt pct (.num 0)) then ledger
  else match getOpenPosition ledger with
  | none => ledger
  | some pos =>
    match getMarkPrice closes with
    | none => ledger
    | some price =>
      if ¬ jsTruthy price then ledger
      else
        let entryPrice := pos.entryPrice
        let qty := pos.qty
        if ¬ (jIsFinite entryPrice && jIsFinite qty && jgt qty (.num 0)) then ledger
        else
          let closeFrac := jmin (.num 1) (jdiv pct (.num 100))
          let closeQty := jmul qty closeFrac
          let remainingQty := jsub qty closeQty
          let realized := jmul (jsub price entryPrice) closeQty
          if jle remainingQty (.num remEps) then
            some ⟨pos.qty, pos.entryPrice, .closed, some price, some realized⟩
          else
            let prevRealized := jsOr0 pos.realizedPnl
            some ⟨remainingQty, pos.entryPrice, .opened, some price, some (jadd prevRealized realized)⟩

/-! ## HP facade (src/src/index.ts lines 162-173) -/

/-- A sandbox argument to `HP.buy` / `HP.sell`: absent (`undefined`), a plain
number, or an object whose relevant field (`usd` resp. `pct`) is present
with a numeric value or missing/undefined. -/
inductive HPArg where
  | undef
  | num (q : ℚ)
  | obj (field : Option JNum)
deriving DecidableEq

/-- `typeof a === "number" ? a : typeof b === "number" ? b :
Number(a?.pct ?? 100)` (index.ts line 169). -/
def hpSellPct (a b : HPArg) : JNum :=
  match a with
  | .num q => .num q
  | _ =>
    match b with
    | .num q => .num q
    | _ =>
      match a with
      | .obj (some v) => v
      | _ => .num 100

/-- `typeof a === "number" ? a : typeof b === "number" ? b :
Number(a?.usd ?? 0)` (index.ts line 164). -/
def hpBuyUsd (a b : HPArg) : JNum :=
  match a with
  | .num q => .num q
  | _ =>
    match b with
    | .num q => .num q
    | _ =>
      match a with
      | .obj (some v) => v
      | _ => .num 0

/-! ## Indicator engine (src/unnamed/part_000, `createIndicators`)

The engine reads `series.opens/highs/lows/closes/volumes` from the cache.
The `KlineSeries` actually present in src/ carries only open-times and
closes (see `KlineSeries` above), so the bundle the engine was written
against is missing from src/ and is modelled from the spec here. -/

/-- Modelled from the spec: the series bundle read by `createIndicators` —
"a bundle of parallel arrays (open-times, opens, highs, lows, closes,
volumes) for a single (exchange, symbol, interval)" (spec §3); the six-array
series type is missing from src/, whose `KlineCache.ts` stores only
open-times and closes. -/
structure Series6 where
  openTimes : List JNum
  opens : List JNum
  highs : List JNum
  lows : List JNum
  closes : List JNum
  volumes : List JNum

/-- The cache as seen by one capability object: the `(exchange, symbol)`
context is fixed, so `cache.getSeries(ctx.exchange, ctx.symbol, tf)` is a
function of the timeframe alone. -/
def CacheView : Type := String → Option Series6

/-- `normalizeSource` (part_000 lines 37-43). -/
def normalizeSource (s : String) : String :=
  if s.trim.toLower = "typical price" then "Typical Price"
  else if s.trim.toLower = "hlc3" then "HLC3"
  else s.trim

/-- `resolveSourceSeries` (part_000 lines 45-70) over the spec-modelled
six-array series.  An out-of-range partner read (`lows[i]!` etc.) is JS
`undefined`, whose arithmetic yields NaN — modelled by the `.nan` default. -/
def resolveSourceSeries (cache : CacheView) (tf sourceRaw : String) : List JNum :=
  match cache tf with
  | none => []
  | some series =>
    let source := normalizeSource sourceRaw
    if source = "Close" then series.closes
    else if source = "Open" then series.opens
    else if source = "High" then series.highs
    else if source = "Low" then series.lows
    else if source = "Volume" then series.volumes
    else if source = "HL2" then
      (List.range series.highs.length).map fun i =>
        jdiv (jadd (series.highs.getD i .nan) (series.lows.getD i .nan)) (.num 2)
    else if source = "HLC3" ∨ source = "Typical Price" then
      (List.range series.highs.length).map fun i =>
        jdiv (jadd (jadd (series.highs.getD i .nan) (series.lows.getD i .nan))
          (series.closes.getD i .nan)) (.num 3)
    else if source = "OHLC4" then
      (List.range series.opens.length).map fun i =>
        jdiv (jadd (jadd (jadd (series.opens.getD i .nan) (series.highs.getD i .nan))
          (series.lows.getD i .nan)) (series.closes.getD i .nan)) (.num 4)
    else series.closes

/-- Memo-table key.  The source keys are template strings such as
`"<tf>|EMA|<source>|<n>"`; they are modelled structurally (the engine builds
the key deterministically from the parameter bundle, which is all the
repeat-call claim needs). -/
inductive MKey where
  | src (tf source : String)
  | ma (tf op source : String) (n : ℕ)
  | rsiK (tf source : String) (n : ℕ)
  | atrK (tf : String) (n : ℕ)
  | macdK (tf source : String) (fast slow sgnl : ℕ)
  | bbK (tf source : String) (n : ℕ) (mult : ℚ)
  | vwapK (tf source : String)
deriving DecidableEq

/-- Association-list lookup (JS `Map.get`; newest entry wins, matching
`Map.set` overwrite semantics). -/
def alookup {α : Type} (k : MKey) : List (MKey × α) → Option α
  | [] => none
  | (k1, v) :: rest => if k1 = k then some v else alookup k rest

/-- The four per-invocation memo tables of `_createIndicators`
(part_000 lines 93-96); `warnOnce` only gates a log line and is not
modelled. -/
structure MemoState where
  seriesCache : List (MKey × List JNum)
  indCache : List (MKey × List JNum)
  numCache : List (MKey × JNum)
  objCache : List (MKey × (JNum × JNum × JNum))

/-- `seriesCache.set(key, v)` (JS `Map.set`). -/
def withSeries (key : MKey) (v : List JNum) (s : MemoState) : MemoState :=
  { s with seriesCache := (key, v) :: s.seriesCache }

/-- `indCache.set(key, arr)`. -/
def withInd (key : MKey) (arr : List JNum) (s : MemoState) : MemoState :=
  { s with indCache := (key, arr) :: s.indCache }

/-- `numCache.set(key, v)`. -/
def withNum (key : MKey) (v : JNum) (s : MemoState) : MemoState :=
  { s with numCache := (key, v) :: s.numCache }

/-- `objCache.set(key, out)`. -/
def withObj (key : MKey) (out : JNum × JNum × JNum) (s : MemoState) : MemoState :=
  { s with objCache := (key, out) :: s.objCache }

/-- `getSource` (part_000 lines 99-106): per-invocation cache of resolved
source arrays.  In JS every array is truthy, so a stored hit is always
returned. -/
def getSource (cache : CacheView) (tf source : String) (s : MemoState) :
    List JNum × MemoState :=
  let key := MKey.src tf source
  match alookup key s.seriesCache with
  | some v => (v, s)
  | none =>
    let v := resolveSourceSeries cache tf source
    (v, withSeries key v s)

/-- Shared body of the EMA/SMA/WMA ops (part_000 lines 118-143): resolve the
source, coerce the length, guard on history, then memoise the computed
array (`cachedArray`) and return its last finite value. -/
def opMA (cache : CacheView) (opName : String) (kernel : List JNum → ℚ → List JNum)
    (tf source : String) (length : ℚ) (s : MemoState) : JNum × MemoState :=
  let r := getSource cache tf source s
  let n := coerceN length
  if r.1.length < n then (.nan, r.2)
  else
    let key := MKey.ma tf opName source n
    match alookup key r.2.indCache with
    | some arr => (lastFinite arr, r.2)
    | none =>
      let arr := kernel r.1 (n : ℚ)
      (lastFinite arr, withInd key arr r.2)

/-- `RSI` op (part_000 lines 146-169); the unsupported-smoothing branch only
logs a warning and always falls back to Wilder. -/
def opRSI (cache : CacheView) (tf source : String) (period : ℚ) (s : MemoState) :
    JNum × MemoState :=
  let n := coerceN period
  let key := MKey.rsiK tf source n
  match alookup key s.numCache with
  | some hit => (hit, s)
  | none =>
    let r := getSource cache tf source s
    let v := rsi r.1 (n : ℚ)
    (v, withNum key v r.2)

/-- `ATR` op (part_000 lines 171-183); a missing series returns NaN without
touching the memo table. -/
def opATR (cache : CacheView) (tf : String) (period : ℚ) (s : MemoState) :
    JNum × MemoState :=
  let n := coerceN period
  let key := MKey.atrK tf n
  match alookup key s.numCache with
  | some hit => (hit, s)
  | none =>
    match cache tf with
    | none => (.nan, s)
    | some series =>
      let v := atr series.highs series.lows series.closes (n : ℚ)
      (v, withNum key v s)

/-- `MACD` op (part_000 lines 186-204): object-cache lookup first, then the
`len < max(fast, slow) + signal` guard, then `macdLatest`; both outcomes are
stored. -/
def opMACD (cache : CacheView) (tf source : String) (fast slow sgnl : ℚ)
    (s : MemoState) : (JNum × JNum × JNum) × MemoState :=
  let f := coerceN fast
  let sl := coerceN slow
  let sg := coerceN sgnl
  let key := MKey.macdK tf source f sl sg
  match alookup key s.objCache with
  | some hit => (hit, s)
  | none =>
    let r := getSource cache tf source s
    let out := if r.1.length < max f sl + sg then (JNum.nan, JNum.nan, JNum.nan)
      else macdLatest r.1 (f : ℚ) (sl : ℚ) (sg : ℚ)
    (out, withObj key out r.2)

/-- `BBANDS` op (part_000 lines 206-218). -/
def opBBANDS (sqrtFn : ℚ → ℚ) (cache : CacheView) (tf source : String)
    (length mult : ℚ) (s : MemoState) : (JNum × JNum × JNum) × MemoState :=
  let n := coerceN length
  let key := MKey.bbK tf source n mult
  match alookup key s.objCache with
  | some hit => (hit, s)
  | none =>
    let r := getSource cache tf source s
    let out := bbandsLatest sqrtFn r.1 (n : ℚ) mult
    (out, withObj key out r.2)

/-- Accumulation loop of `VWAP` (part_000 lines 233-241): rows with a
non-finite price or volume are skipped. -/
def vwapAccum : List (JNum × JNum) → JNum × JNum → JNum × JNum
  | [], acc => acc
  | (price, vol) :: rest, (pv, vSum) =>
    if jIsFinite price && jIsFinite vol then
      vwapAccum rest (jadd pv (jmul price vol), jadd vSum vol)
    else vwapAccum rest (pv, vSum)

/-- `VWAP` op (part_000 lines 220-245). -/
def opVWAP (cache : CacheView) (tf source : String) (s : MemoState) :
    JNum × MemoState :=
  let key := MKey.vwapK tf source
  match alookup key s.numCache with
  | some hit => (hit, s)
  | none =>
    match cache tf with
    | none => (.nan, s)
    | some series =>
      let r := getSource cache tf source s
      let vols := series.volumes
      let len := min r.1.length vols.length
      if len = 0 then (.nan, r.2)
      else
        let acc := vwapAccum ((r.1.take len).zip (vols.take len)) (.num 0, .num 0)
        let out := if jseq acc.2 (.num 0) then JNum.nan else jdiv acc.1 acc.2
        (out, withNum key out r.2)

/-- Pure part of `BREAKOUT_UP` (part_000 lines 248-273) once the source
array, coerced lookback, and level are fixed.  A provided finite level is an
explicit threshold; otherwise the current bar is compared with the max over
the previous `lookback` bars. -/
def breakoutUpCalc (values : List JNum) (lookback : ℕ) (level : Option JNum) : Bool :=
  if values.length < 2 then false
  else
    let curr := values.getD (values.length - 1) .nan
    if ¬ jIsFinite curr then false
    else if (match level with | some lv => jIsFinite lv | none => false) then
      jgt curr (level.getD .nan)
    else
      let e := values.length - 1
      let start := e - min lookback e
      if e - start < 1 then false
      else
        let mx := ((values.drop start).take (e - start)).foldl
          (fun mx v => if jIsFinite v && jgt v mx then v else mx) .ninf
        if jIsFinite mx then jgt curr mx else false

/-- Pure part of `BREAKOUT_DOWN` (part_000 lines 275-298). -/
def breakoutDownCalc (values : List JNum) (lookback : ℕ) (level : Option JNum) : Bool :=
  if values.length < 2 then false
  else
    let curr := values.getD (values.length - 1) .nan
    if ¬ jIsFinite curr then false
    else if (match level with | some lv => jIsFinite lv | none => false) then
      jlt curr (level.getD .nan)
    else
      let e := values.length - 1
      let start := e - min lookback e
      if e - start < 1 then false
      else
        let mn := ((values.drop start).take (e - start)).foldl
          (fun mn v => if jIsFinite v && jlt v mn then v else mn) .inf
        if jIsFinite mn then jlt curr mn else false

/-- `BREAKOUT_UP` op: resolves the source through the memoised `getSource`,
then applies the pure comparison. -/
def opBreakoutUp (cache : CacheView) (tf source : String) (lookback : ℚ)
    (level : Option JNum) (s : MemoState) : Bool × MemoState :=
  let r := getSource cache tf source s
  (breakoutUpCalc r.1 (coerceN lookback) level, r.2)

/-- `BREAKOUT_DOWN` op. -/
def opBreakoutDown (cache : CacheView) (tf source : String) (lookback : ℚ)
    (level : Option JNum) (s : MemoState) : Bool × MemoState :=
  let r := getSource cache tf source s
  (breakoutDownCalc r.1 (coerceN lookback) level, r.2)

/-- `getCloses` (part_000 lines 21-24). -/
def getCloses (cache : CacheView) (tf : String) : List JNum :=
  match cache tf with
  | none => []
  | some series => series.closes

/-- `EMA_CROSS_UP` (part_000 lines 300-305); no memoisation, raw periods. -/
def opEmaCrossUp (cache : CacheView) (tf : String) (fast slow : ℚ) : Bool :=
  let closes := getCloses cache tf
  crossUp (ema closes fast) (ema closes slow)

/-- `EMA_CROSS_DOWN` (part_000 lines 327-332). -/
def opEmaCrossDown (cache : CacheView) (tf : String) (fast slow : ℚ) : Bool :=
  let closes := getCloses cache tf
  crossDown (ema closes fast) (ema closes slow)

/-- `SMA_CROSS_UP` (part_000 lines 307-312). -/
def opSmaCrossUp (cache : CacheView) (tf : String) (fast slow : ℚ) : Bool :=
  let closes := getCloses cache tf
  crossUp (sma closes fast) (sma closes slow)

/-- `MACD_CROSS_UP` (part_000 lines 314-324). -/
def opMacdCrossUp (cache : CacheView) (tf : String) (fast slow sgnl : ℚ) : Bool :=
  let closes := getCloses cache tf
  let fastE := ema closes fast
  let slowE := ema closes slow
  if fastE.length = 0 ∨ slowE.length = 0 then false
  else
    let len := min fastE.length slowE.length
    let macdLine := (List.range len).map fun i =>
      jsub (fastE.getD i .nan) (slowE.getD i .nan)
    let signalLine := ema macdLine sgnl
    crossUp macdLine signalLine

/-- One call into the capability object: every operation of the surface with
its parameter bundle. -/
inductive OpCall where
  | emaOp (tf source : String) (length : ℚ)
  | smaOp (tf source : String) (length : ℚ)
  | wmaOp (tf source : String) (length : ℚ)
  | rsiOp (tf source : String) (period : ℚ)
  | atrOp (tf : String) (period : ℚ)
  | macdOp (tf source : String) (fast slow sgnl : ℚ)
  | bbandsOp (tf source : String) (length mult : ℚ)
  | vwapOp (tf source : String)
  | breakoutUpOp (tf source : String) (lookback : ℚ) (level : Option JNum)
  | breakoutDownOp (tf source : String) (lookback : ℚ) (level : Option JNum)
  | emaCrossUpOp (tf : String) (fast slow : ℚ)
  | smaCrossUpOp (tf : String) (fast slow : ℚ)
  | macdCrossUpOp (tf : String) (fast slow sgnl : ℚ)
  | emaCrossDownOp (tf : String) (fast slow : ℚ)

/-- Result of one call: scalar, structured triple, or boolean. -/
inductive OpResult where
  | scalar (v : JNum)
  | triple (t : JNum × JNum × JNum)
  | flag (b : Bool)
deriving DecidableEq

/-- Dispatch of one call against the capability object's memo state. -/
def runOp (sqrtFn : ℚ → ℚ) (cache : CacheView) : OpCall → MemoState → OpResult × MemoState
  | .emaOp tf source length, s =>
    let r := opMA cache "EMA" ema tf source length s
    (.scalar r.1, r.2)
  | .smaOp tf source length, s =>
    let r := opMA cache "SMA" sma tf source length s
    (.scalar r.1, r.2)
  | .wmaOp tf source length, s =>
    let r := opMA cache "WMA" wma tf source length s
    (.scalar r.1, r.2)
  | .rsiOp tf source period, s =>
    let r := opRSI cache tf source period s
    (.scalar r.1, r.2)
  | .atrOp tf period, s =>
    let r := opATR cache tf period s
    (.scalar r.1, r.2)
  | .macdOp tf source fast slow sgnl, s =>
    let r := opMACD cache tf source fast slow sgnl s
    (.triple r.1, r.2)
  | .bbandsOp tf source length mult, s =>
    let r := opBBANDS sqrtFn cache tf source length mult s
    (.triple r.1, r.2)
  | .vwapOp tf source, s =>
    let r := opVWAP cache tf source s
    (.scalar r.1, r.2)
  | .breakoutUpOp tf source lookback level, s =>
    let r := opBreakoutUp cache tf source lookback level s
    (.flag r.1, r.2)
  | .breakoutDownOp tf source lookback level, s =>
    let r := opBreakoutDown cache tf source lookback level s
    (.flag r.1, r.2)
  | .emaCrossUpOp tf fast slow, s => (.flag (opEmaCrossUp cache tf fast slow), s)
  | .smaCrossUpOp tf fast slow, s => (.flag (opSmaCrossUp cache tf fast slow), s)
  | .macdCrossUpOp tf fast slow sgnl, s => (.flag (opMacdCrossUp cache tf fast slow sgnl), s)
  | .emaCrossDownOp tf fast slow, s => (.flag (opEmaCrossDown cache tf fast slow), s)

/-! ## Basic lemmas about the embedding -/

namespace JNum

@[simp] theorem jadd_nan_right (a : JNum) : jadd a .nan = .nan := by
  cases a <;> rfl

@[simp] theorem jadd_nan_left (a : JNum) : jadd .nan a = .nan := by
  cases a <;> rfl

@[simp] theorem jsub_nan_right (a : JNum) : jsub a .nan = .nan := by
  cases a <;> rfl

@[simp] theorem jsub_nan_left (a : JNum) : jsub .nan a = .nan := by
  cases a <;> rfl

@[simp] theorem jmul_nan_right (a : JNum) : jmul a .nan = .nan := by
  cases a <;> rfl

@[simp] theorem jmul_nan_left (a : JNum) : jmul .nan a = .nan := by
  cases a <;> rfl

@[simp] theorem jdiv_nan_left (a : JNum) : jdiv .nan a = .nan := by
  cases a <;> rfl

@[simp] theorem jdiv_nan_right (a : JNum) : jdiv a .nan = .nan := by
  cases a <;> rfl

@[simp] theorem jIsFinite_num (q : ℚ) : jIsFinite (.num q) = true := rfl

@[simp] theorem jIsFinite_nan : jIsFinite .nan = false := rfl

theorem eq_num_of_jIsFinite {a : JNum} (h : jIsFinite a = true) : ∃ q, a = .num q := by
  cases a with
  | num q => exact ⟨q, rfl⟩
  | nan => simp [jIsFinite] at h
  | inf => simp [jIsFinite] at h
  | ninf => simp [jIsFinite] at h

@[simp] theorem jadd_num_num (a b : ℚ) : jadd (.num a) (.num b) = .num (a + b) := rfl

@[simp] theorem jsub_num_num (a b : ℚ) : jsub (.num a) (.num b) = .num (a - b) := by
  simp [jsub, jneg, jadd, sub_eq_add_neg]

@[simp] theorem jmul_num_num (a b : ℚ) : jmul (.num a) (.num b) = .num (a * b) := rfl

theorem jdiv_num_num_of_ne {a b : ℚ} (h : b ≠ 0) :
    jdiv (.num a) (.num b) = .num (a / b) := by
  simp [jdiv, h]

end JNum

theorem coerceN_pos (period : ℚ) : 1 ≤ coerceN period := by
  unfold coerceN
  have h := le_max_left (1 : ℤ) ⌊period⌋
  omega

theorem coerceN_coe (n : ℕ) (h : 1 ≤ n) : coerceN (n : ℚ) = n := by
  unfold coerceN
  rw [Int.floor_natCast]
  have h1 : (1 : ℤ) ≤ (n : ℤ) := by exact_mod_cast h
  rw [max_eq_right h1]
  exact Int.toNat_natCast n

theorem coerceN_idem (period : ℚ) : coerceN ((coerceN period : ℕ) : ℚ) = coerceN period :=
  coerceN_coe _ (coerceN_pos period)

@[simp] theorem alookup_cons_self {α : Type} (k : MKey) (v : α) (l : List (MKey × α)) :
    alookup k ((k, v) :: l) = some v := by
  simp [alookup]

@[simp] theorem withSeries_seriesCache (key : MKey) (v : List JNum) (s : MemoState) :
    (withSeries key v s).seriesCache = (key, v) :: s.seriesCache := rfl

@[simp] theorem withInd_seriesCache (key : MKey) (arr : List JNum) (s : MemoState) :
    (withInd key arr s).seriesCache = s.seriesCache := rfl

@[simp] theorem withInd_indCache (key : MKey) (arr : List JNum) (s : MemoState) :
    (withInd key arr s).indCache = (key, arr) :: s.indCache := rfl

@[simp] theorem withNum_numCache (key : MKey) (v : JNum) (s : MemoState) :
    (withNum key v s).numCache = (key, v) :: s.numCache := rfl

@[simp] theorem withObj_objCache (key : MKey) (out : JNum × JNum × JNum) (s : MemoState) :
    (withObj key out s).objCache = (key, out) :: s.objCache := rfl

/-! ## Claim C1 -/

/-- C1 (code bug): replaying the spec scenario against the broker code —
`buy({usd:100})` at mark 50 opens qty 2 at entry 50, and `sell({pct:50})` at
mark 60 leaves qty 1 with realized PnL 10, exactly as claimed; but the final
`sell({pct:100})` at mark 70 records a TOTAL realized PnL of 20, not the
claimed 30: the full-close branch (Sandbox.ts line 217) sets `realized_pnl`
to this sell's PnL alone, discarding the accumulated 10, while the
partial-close branch (line 240) accumulates. -/
theorem C1_broker_scenario_records_20 :
    PaperBroker.buy (.num 100) [.num 50] none =
      some ⟨.num 2, .num 50, .opened, none, none⟩ ∧
    PaperBroker.sell (.num 50) [.num 60]
      (PaperBroker.buy (.num 100) [.num 50] none) =
      some ⟨.num 1, .num 50, .opened, some (.num 60), some (.num 10)⟩ ∧
    PaperBroker.sell (.num 100) [.num 70]
      (PaperBroker.sell (.num 50) [.num 60]
        (PaperBroker.buy (.num 100) [.num 50] none)) =
      some ⟨.num 1, .num 50, .closed, some (.num 70), some (.num 20)⟩ ∧
    JNum.num 20 ≠ JNum.num 30 := by
  refine ⟨?_, ?_, ?_, by decide⟩ <;>
    norm_num [PaperBroker.buy, PaperBroker.sell, getOpenPosition, getMarkPrice,
      List.getLast?, jsTruthy, jIsFinite, jgt, jlt, jle, jdiv, jmin, jmul, jsub,
      jneg, jadd, jsOr0, remEps]

/-! ## Claim C2 -/

/-- C2 (code bug): every series the cache's `preload` stores is a bundle of
exactly TWO parallel arrays — open-times and closes — of equal length; the
`opens`, `highs`, `lows` and `volumes` properties that the indicator
engine's source selection, ATR and VWAP read are not fields of the stored
series, so those reads yield `undefined` (`none`), not well-defined arrays. -/
theorem C2_preload_series_two_arrays :
    ∀ (exchange symbol interval : String) (data : List (JNum × JNum)),
      (preloadSeries exchange symbol interval data).openTimes.length =
        (preloadSeries exchange symbol interval data).closes.length ∧
      (preloadSeries exchange symbol interval data).opensProp = none ∧
      (preloadSeries exchange symbol interval data).highsProp = none ∧
      (preloadSeries exchange symbol interval data).lowsProp = none ∧
      (preloadSeries exchange symbol interval data).volumesProp = none := by
  intro exchange symbol interval data
  refine ⟨?_, rfl, rfl, rfl, rfl⟩
  unfold preloadSeries
  split
  · rfl
  · simp

/-! ## Claim C3 -/

/-- C3 counterexample: for A = [0, 5, NaN, 2] and B = [1, 1, 1, 1] the last
two common finite indices are 1 and 3, where A_prev = 5 > B_prev = 1, so the
claim's predicate is false; but the code's `crossUp` compares A's last
adjacent finite pair (0, 5) — found at indices 0, 1 — with B's (1, 1) at
indices 2, 3 and returns true.  The claimed equivalence fails. -/
theorem C3_counterexample :
    crossUp [.num 0, .num 5, .nan, .num 2] [.num 1, .num 1, .num 1, .num 1] = true ∧
    crossUpClaim [.num 0, .num 5, .nan, .num 2] [.num 1, .num 1, .num 1, .num 1] = false := by
  refine ⟨by decide, by decide⟩

/-! ## Claim C5 -/

/-- C5 counterexample: `sma` does not coerce its period to `max(1, floor(n))`
— with period 0 it returns the EMPTY array for a length-1 input
(math.ts line 2), so the claimed "same length as input for every n" fails. -/
theorem C5_counterexample :
    (sma [JNum.num 1] 0).length ≠ [JNum.num 1].length ∧ sma [JNum.num 1] 0 = [] ∧
    ema [JNum.num 1] 0 = [] := by
  refine ⟨by decide, by decide, by decide⟩

/-! ## Claim C6 -/

/-- C6 counterexample: for values [1,2,3,4,5,6] with fast 1, slow 2,
signal 5 the length 6 is below max(fast, slow) + signal = 7, yet
`macdLatest` returns the all-finite triple (1/2, 13/30, 1/15) — the `ema`
seed of the signal line divides by the period even though only 4 of the
first 5 macd-line entries are finite, so the signal line is already defined. -/
theorem C6_counterexample :
    (([JNum.num 1, .num 2, .num 3, .num 4, .num 5, .num 6].length : ℚ) <
      max 1 2 + 5) ∧
    macdLatest [JNum.num 1, .num 2, .num 3, .num 4, .num 5, .num 6] 1 2 5 =
      (.num (1/2), .num (13/30), .num (1/15)) ∧
    (JNum.num (1/2), JNum.num (13/30), JNum.num (1/15)) ≠
      (JNum.nan, JNum.nan, JNum.nan) := by
  refine ⟨by norm_num, ?_, by decide⟩
  norm_num [macdLatest, ema, emaPass1go, emaPass2go, findIdxFinite, lastFinite,
    List.find?, jIsFinite, jadd, jsub, jneg, jmul, jdiv, List.range_succ]

/-! ## Claim C7 -/

/-- C7 counterexample: with the default capacity (5000) a caller passing
`maxCandles = 10` is claimed to get `min(cacheCap, 10) = 10` rows requested,
but `preload` clamps the limit below at 50 (KlineCache.ts line 50) and
requests 50. -/
theorem C7_counterexample :
    preloadLimit (cacheCap none) (some 10) = 50 ∧
    min (cacheCap none) 10 = 10 ∧ (50 : ℚ) ≠ 10 := by
  refine ⟨?_, ?_, by norm_num⟩ <;> norm_num [preloadLimit, cacheCap]

/-- C7 amended: the number of candles requested equals
`max(50, min(cacheCap, maxCandles ?? cacheCap))` where `cacheCap ≥ 50`; in
particular a caller passing `maxCandles` BETWEEN 50 AND cacheCap gets
exactly `maxCandles` rows requested, a request below 50 is raised to 50, and
a request above `cacheCap` is capped at `cacheCap`. -/
theorem C7_amended_limit_clamped :
    ∀ (opts : Option ℚ) (req : ℚ),
      50 ≤ cacheCap opts ∧
      preloadLimit (cacheCap opts) none = cacheCap opts ∧
      (50 ≤ req → req ≤ cacheCap opts → preloadLimit (cacheCap opts) (some req) = req) ∧
      (req < 50 → preloadLimit (cacheCap opts) (some req) = 50) ∧
      (cacheCap opts < req → preloadLimit (cacheCap opts) (some req) = cacheCap opts) := by
  intro opts req
  have hcap : (50 : ℚ) ≤ cacheCap opts := le_max_left _ _
  refine ⟨hcap, ?_, ?_, ?_, ?_⟩
  · simp [preloadLimit, min_self, max_eq_right hcap]
  · intro h50 hle
    simp [preloadLimit, min_eq_right hle, max_eq_right h50]
  · intro hlt
    have h1 : req ≤ cacheCap opts := le_trans (le_of_lt hlt) hcap
    simp [preloadLimit, min_eq_right h1, max_eq_left (le_of_lt hlt)]
  · intro hlt
    simp [preloadLimit, min_eq_left (le_of_lt hlt), max_eq_right hcap]

/-- C7 amended, witness: default capacity, `maxCandles = 100` (between 50
and 5000) requests exactly 100. -/
theorem C7_amended_limit_clamped_witness :
    preloadLimit (cacheCap none) (some 100) = 100 := by
  refine (C7_amended_limit_clamped none 100).2.2.1 (by norm_num) ?_
  norm_num [cacheCap]

/-! ## Claim C10 -/

/-- C10 counterexample: the claim quantifies over arrays "containing a
non-finite value"; with +Infinity (non-finite) at index 0 and period 1,
`sma` returns Infinity — not NaN — at index 0 (= max(j, n-1)): the rolling
sum only turns into NaN once the Infinity is subtracted back out. -/
theorem C10_counterexample :
    jIsFinite ([JNum.inf, .num 0, .num 0].getD 0 .nan) = false ∧
    (sma [JNum.inf, .num 0, .num 0] 1).getD 0 .nan = JNum.inf ∧
    JNum.inf ≠ JNum.nan := by
  refine ⟨by decide, ?_, by decide⟩
  norm_num [sma, smaSum, smaStep, ratIdx, jadd, jdiv, jsub, jneg, List.range_succ]

/-! ## Claim C9 -/

/-- C9: at the sandbox boundary (index.ts lines 162-173), `HP.sell` with no
numeric argument and no `pct` field — including `HP.sell()` and
`HP.sell({})` — defaults `pct` to 100, and a sell with pct 100 fully closes
any open position (valid stored qty and entry, mark price available);
`HP.buy` in the same situation defaults `usd` to 0, which the broker rejects
as invalid (`usd <= 0`), leaving the ledger untouched. -/
theorem C9_hp_defaults :
    ∀ (closes : List JNum) (pos : Position) (price : JNum),
      pos.status = .opened →
      jIsFinite pos.entryPrice = true →
      jIsFinite pos.qty = true →
      jgt pos.qty (.num 0) = true →
      getMarkPrice closes = some price →
      jsTruthy price = true →
      hpSellPct .undef .undef = .num 100 ∧
      hpSellPct (.obj none) .undef = .num 100 ∧
      PaperBroker.sell (hpSellPct .undef .undef) closes (some pos) =
        some ⟨pos.qty, pos.entryPrice, .closed, some price,
          some (jmul (jsub price pos.entryPrice) pos.qty)⟩ ∧
      hpBuyUsd .undef .undef = .num 0 ∧
      hpBuyUsd (.obj none) .undef = .num 0 ∧
      (∀ ledger, PaperBroker.buy (hpBuyUsd .undef .undef) closes ledger = ledger) := by
  intro closes pos price hstatus hentry hqty hqty0 hmark htruthy
  obtain ⟨e, he⟩ := eq_num_of_jIsFinite hentry
  obtain ⟨q, hq⟩ := eq_num_of_jIsFinite hqty
  refine ⟨rfl, rfl, ?_, rfl, rfl, ?_⟩
  · show PaperBroker.sell (.num 100) closes (some pos) = _
    unfold PaperBroker.sell
    rw [hmark]
    have hopen : getOpenPosition (some pos) = some pos := by
      simp [getOpenPosition, hstatus]
    rw [hopen]
    have hfrac : jmin (.num 1) (jdiv (.num 100) (.num 100)) = .num 1 := by
      norm_num [jdiv, jmin]
    have hclose : jmul pos.qty (jmin (.num 1) (jdiv (.num 100) (.num 100))) = pos.qty := by
      rw [hfrac, hq]; norm_num [jmul]
    have hrem : jsub pos.qty pos.qty = .num 0 := by
      rw [hq]; norm_num [jsub, jneg, jadd]
    have hle0 : jle (JNum.num 0) (.num remEps) = true := by
      norm_num [jle, remEps]
    simp only [hentry, hqty, hqty0, htruthy, hclose, hrem, hle0]
    norm_num [jgt, jlt, jIsFinite]
  · intro ledger
    show PaperBroker.buy (.num 0) closes ledger = ledger
    unfold PaperBroker.buy
    norm_num [jgt, jlt, jIsFinite]

/-- C9 witness: a concrete open position (qty 2 at entry 50) with mark price
50: `HP.sell()` closes it; `HP.buy()` is a no-op. -/
theorem C9_hp_defaults_witness :
    PaperBroker.sell (hpSellPct .undef .undef) [.num 50]
      (some ⟨.num 2, .num 50, .opened, none, none⟩) =
      some ⟨.num 2, .num 50, .closed, some (.num 50),
        some (jmul (jsub (.num 50) (.num 50)) (.num 2))⟩ ∧
    PaperBroker.buy (hpBuyUsd .undef .undef) [.num 50] none = none := by
  have h := C9_hp_defaults [.num 50] ⟨.num 2, .num 50, .opened, none, none⟩ (.num 50)
    rfl rfl rfl (by decide) (by norm_num [getMarkPrice, List.getLast?]) (by decide)
  exact ⟨h.2.2.1, h.2.2.2.2.2 none⟩

/-- `getD` of a mapped range at an in-range index. -/
theorem getD_map_range {α : Type} (f : ℕ → α) (len i : ℕ) (d : α) (h : i < len) :
    ((List.range len).map f).getD i d = f i := by
  rw [List.getD_eq_getElem?_getD, List.getElem?_map, List.getElem?_range h]
  rfl

/-- A NaN input value makes the rolling-sum step NaN. -/
theorem smaStep_nan_of_val (v : List JNum) (p : ℚ) (i : ℕ) (sum : JNum)
    (h : v.getD i .nan = .nan) : smaStep v p i sum = .nan := by
  unfold smaStep
  rw [h]
  simp only [jadd_nan_right]
  split
  · cases ratIdx v ((i : ℚ) - p) <;> simp
  · rfl

/-- A NaN rolling sum never recovers. -/
theorem smaStep_nan_of_sum (v : List JNum) (p : ℚ) (i : ℕ) :
    smaStep v p i .nan = .nan := by
  unfold smaStep
  simp only [jadd_nan_left]
  split
  · cases ratIdx v ((i : ℚ) - p) <;> simp
  · rfl

/-- From the NaN index on, every rolling sum of `sma` is NaN. -/
theorem smaSum_nan (v : List JNum) (p : ℚ) (j : ℕ) (h : v.getD j .nan = .nan) :
    ∀ i, j ≤ i → smaSum v p i = .nan := by
  intro i hi
  induction i with
  | zero =>
    have hj : j = 0 := Nat.le_zero.mp hi
    subst hj
    exact smaStep_nan_of_val v p 0 (.num 0) h
  | succ k ih =>
    rcases Nat.lt_or_ge j (k + 1) with hlt | hge
    · have hk : j ≤ k := Nat.lt_succ_iff.mp hlt
      have hs : smaSum v p k = .nan := ih hk
      show smaStep v p (k + 1) (smaSum v p k) = .nan
      rw [hs]
      exact smaStep_nan_of_sum v p (k + 1)
    · have hj : j = k + 1 := le_antisymm hi hge
      subst hj
      exact smaStep_nan_of_val v p (k + 1) _ h

/-- C10 amended: for every input array with a NaN value at some index j (the
original claim said "non-finite", which fails for ±Infinity — see the
counterexample) and every period n ≥ 1, `sma` returns NaN at every index
i ≥ max(j, n-1), even at windows no longer containing j: the rolling sum
never recovers from the NaN contribution. -/
theorem C10_sma_nan_poisons :
    ∀ (v : List JNum) (n j i : ℕ), 1 ≤ n → j < v.length → v.getD j .nan = .nan →
      max j (n - 1) ≤ i → i < v.length →
      (sma v (n : ℚ)).getD i .nan = .nan := by
  intro v n j i hn hj hnan hmax hi
  have hpos : ¬ ((n : ℚ) ≤ 0) := by
    push_neg
    exact_mod_cast hn
  unfold sma
  rw [if_neg hpos, getD_map_range _ _ _ _ hi]
  have hidx : (n : ℚ) - 1 ≤ (i : ℚ) := by
    have h1 : n - 1 ≤ i := le_trans (le_max_right j (n - 1)) hmax
    have h2 : n ≤ i + 1 := by omega
    have h3 : (n : ℚ) ≤ (i : ℚ) + 1 := by exact_mod_cast h2
    linarith
  rw [if_pos hidx]
  have hsum : smaSum v (n : ℚ) i = .nan :=
    smaSum_nan v (n : ℚ) j hnan i (le_trans (le_max_left j (n - 1)) hmax)
  rw [hsum]
  simp

/-- C10 amended, witness: v = [1, NaN, 3], n = 1, j = 1: index 2 ≥ max(1, 0)
is NaN although its window [3] no longer contains the NaN. -/
theorem C10_sma_nan_poisons_witness :
    (sma [JNum.num 1, .nan, .num 3] (1 : ℚ)).getD 2 .nan = .nan :=
  C10_sma_nan_poisons [JNum.num 1, .nan, .num 3] 1 1 2 (by decide) (by decide)
    (by decide) (by decide) (by decide)

/-- Pass 1 of `ema` emits exactly one entry per input value. -/
theorem emaPass1go_length (p k : ℚ) :
    ∀ (l : List JNum) (i : ℕ) (sum : ℚ) (prev : JNum),
      (emaPass1go p k l i sum prev).length = l.length := by
  intro l
  induction l with
  | nil => intro i sum prev; rfl
  | cons v rest ih =>
    intro i sum prev
    unfold emaPass1go
    cases v with
    | num q => dsimp only; split <;> simp [ih]
    | nan => simp [ih]
    | inf => simp [ih]
    | ninf => simp [ih]

/-- Pass 2 of `ema` preserves length. -/
theorem emaPass2go_length (k : ℚ) :
    ∀ (l : List (JNum × JNum)) (prev : JNum), (emaPass2go k l prev).length = l.length := by
  intro l
  induction l with
  | nil => intro prev; rfl
  | cons p rest ih =>
    intro prev
    obtain ⟨a, b⟩ := p
    unfold emaPass2go
    simp [ih]

/-- A found first-finite index is in range. -/
theorem findIdxFinite_lt_length :
    ∀ (l : List JNum) (i : ℕ), findIdxFinite l = some i → i < l.length := by
  intro l
  induction l with
  | nil => intro i h; simp [findIdxFinite] at h
  | cons v rest ih =>
    intro i h
    unfold findIdxFinite at h
    split at h
    · have h0 : i = 0 := by
        have := Option.some.inj h
        omega
      simp [h0]
    · simp only [Option.map_eq_some'] at h
      obtain ⟨j, hj, hji⟩ := h
      have := ih j hj
      simp
      omega

/-- For a positive period, `ema` returns an array of the input's length. -/
theorem ema_length (v : List JNum) (p : ℚ) (hp : 0 < p) :
    (ema v p).length = v.length := by
  unfold ema
  rw [if_neg (not_le.mpr hp)]
  dsimp only
  have h1 : (emaPass1go p (2 / (p + 1)) v 0 0 .nan).length = v.length :=
    emaPass1go_length _ _ v 0 0 .nan
  rcases hf : findIdxFinite (emaPass1go p (2 / (p + 1)) v 0 0 .nan) with _ | first
  · simpa using h1
  · have hlt : first < v.length := h1 ▸ findIdxFinite_lt_length _ first hf
    simp only [List.length_append, List.length_take, emaPass2go_length,
      List.length_zip, List.length_drop, h1]
    omega

/-- C5 amended: `wma`, `rsi`, `atr` and `bbandsLatest` coerce their
window/period parameter to `max(1, floor(n))` before use (behaviourally:
replacing the period by its coercion never changes the result); `sma` and
`ema` do NOT coerce — they return the EMPTY array when the period is ≤ 0
(see the counterexample) and an array of the input's length when the period
is positive. -/
theorem C5_amended_coercion :
    ∀ (values highs lows closes : List JNum) (period mult : ℚ) (sqrtFn : ℚ → ℚ),
      wma values period = wma values ((coerceN period : ℕ) : ℚ) ∧
      rsi values period = rsi values ((coerceN period : ℕ) : ℚ) ∧
      atr highs lows closes period = atr highs lows closes ((coerceN period : ℕ) : ℚ) ∧
      bbandsLatest sqrtFn values period mult =
        bbandsLatest sqrtFn values ((coerceN period : ℕ) : ℚ) mult ∧
      (period ≤ 0 → sma values period = [] ∧ ema values period = []) ∧
      (0 < period → (sma values period).length = values.length ∧
        (ema values period).length = values.length) := by
  intro values highs lows closes period mult sqrtFn
  refine ⟨?_, ?_, ?_, ?_, ?_, ?_⟩
  · simp only [wma, coerceN_idem]
  · simp only [rsi, rsiAvgs, coerceN_idem]
  · simp only [atr, coerceN_idem]
  · simp only [bbandsLatest, coerceN_idem]
  · intro h
    exact ⟨by simp [sma, h], by simp [ema, h]⟩
  · intro h
    refine ⟨?_, ema_length values period h⟩
    simp [sma, not_le.mpr h]

/-- C5 amended, witness: with period 0 `sma`/`ema` return `[]`; with period 2
on a length-2 input they return length-2 arrays. -/
theorem C5_amended_coercion_witness :
    (sma [JNum.num 1] 0 = [] ∧ ema [JNum.num 1] 0 = []) ∧
    ((sma [JNum.num 1, .num 2] 2).length = 2 ∧
      (ema [JNum.num 1, .num 2] 2).length = 2) := by
  refine ⟨(C5_amended_coercion [JNum.num 1] [] [] [] 0 0 id).2.2.2.2.1 (by norm_num), ?_⟩
  have h := (C5_amended_coercion [JNum.num 1, .num 2] [] [] [] 2 0 id).2.2.2.2.2
    (by norm_num)
  simpa using h

/-- `ema` with a non-positive period returns `[]` (math.ts line 14). -/
theorem ema_nonpos (v : List JNum) (p : ℚ) (hp : p ≤ 0) : ema v p = [] := by
  simp [ema, hp]

/-- If no loop index hits `period - 1`, pass 1 (started with a NaN `prev`)
emits only NaNs: the seed is never written and the update formula only
propagates NaN. -/
theorem emaPass1go_allnan_noseed (p k : ℚ) :
    ∀ (l : List JNum) (i0 : ℕ) (sum : ℚ),
      (∀ m, m < l.length → ((i0 + m : ℕ) : ℚ) ≠ p - 1) →
      ∀ x ∈ emaPass1go p k l i0 sum .nan, x = .nan := by
  intro l
  induction l with
  | nil => intro i0 sum hno x hx; simp [emaPass1go] at hx
  | cons v rest ih =>
    intro i0 sum hno x hx
    unfold emaPass1go at hx
    cases v with
    | num q =>
      dsimp only at hx
      by_cases hip : (i0 : ℚ) < p
      · rw [if_pos hip] at hx
        have hentry : (if (i0 : ℚ) = p - 1 then JNum.num ((sum + q) / p) else JNum.nan)
            = JNum.nan := by
          rw [if_neg]
          have := hno 0 (by simp)
          simpa using this
        rw [hentry] at hx
        rcases List.mem_cons.mp hx with h1 | h1
        · exact h1
        · exact ih (i0 + 1) (sum + q)
            (fun m hm => by
              have := hno (m + 1) (by simpa using Nat.succ_lt_succ hm)
              convert this using 2
              omega) x h1
      · rw [if_neg hip] at hx
        have hentry : jadd (jmul (jsub (JNum.num q) .nan) (.num k)) .nan = JNum.nan := by
          simp
        rw [hentry] at hx
        rcases List.mem_cons.mp hx with h1 | h1
        · exact h1
        · exact ih (i0 + 1) sum
            (fun m hm => by
              have := hno (m + 1) (by simpa using Nat.succ_lt_succ hm)
              convert this using 2
              omega) x h1
    | nan =>
      rcases List.mem_cons.mp hx with h1 | h1
      · exact h1
      · exact ih (i0 + 1) sum
          (fun m hm => by
            have := hno (m + 1) (by simpa using Nat.succ_lt_succ hm)
            convert this using 2
            omega) x h1
    | inf =>
      rcases List.mem_cons.mp hx with h1 | h1
      · exact h1
      · exact ih (i0 + 1) sum
          (fun m hm => by
            have := hno (m + 1) (by simpa using Nat.succ_lt_succ hm)
            convert this using 2
            omega) x h1
    | ninf =>
      rcases List.mem_cons.mp hx with h1 | h1
      · exact h1
      · exact ih (i0 + 1) sum
          (fun m hm => by
            have := hno (m + 1) (by simpa using Nat.succ_lt_succ hm)
            convert this using 2
            omega) x h1

/-- Pass 1 over an all-NaN input emits only NaNs. -/
theorem emaPass1go_allnan_input (p k : ℚ) :
    ∀ (l : List JNum) (i0 : ℕ) (sum : ℚ) (prev : JNum),
      (∀ x ∈ l, x = JNum.nan) →
      ∀ x ∈ emaPass1go p k l i0 sum prev, x = JNum.nan := by
  intro l
  induction l with
  | nil => intro i0 sum prev hall x hx; simp [emaPass1go] at hx
  | cons v rest ih =>
    intro i0 sum prev hall x hx
    have hv : v = JNum.nan := hall v (by simp)
    subst hv
    unfold emaPass1go at hx
    rcases List.mem_cons.mp hx with h1 | h1
    · exact h1
    · exact ih (i0 + 1) sum .nan (fun y hy => hall y (by simp [hy])) x h1

/-- No finite entry, no first-finite index. -/
theorem findIdxFinite_none (l : List JNum) (hall : ∀ x ∈ l, x = JNum.nan) :
    findIdxFinite l = none := by
  induction l with
  | nil => rfl
  | cons v rest ih =>
    have hv : v = JNum.nan := hall v (by simp)
    subst hv
    unfold findIdxFinite
    rw [if_neg (by simp)]
    rw [ih (fun y hy => hall y (by simp [hy]))]
    rfl

/-- `ema` of a series shorter than its period is all-NaN. -/
theorem ema_allnan_short (v : List JNum) (p : ℚ) (h : (v.length : ℚ) < p) :
    ∀ x ∈ ema v p, x = JNum.nan := by
  intro x hx
  by_cases hp : p ≤ 0
  · simp [ema_nonpos v p hp] at hx
  · unfold ema at hx
    rw [if_neg hp] at hx
    dsimp only at hx
    have hall : ∀ y ∈ emaPass1go p (2 / (p + 1)) v 0 0 .nan, y = JNum.nan := by
      refine emaPass1go_allnan_noseed p (2 / (p + 1)) v 0 0 ?_
      intro m hm heq
      have h1 : ((m : ℚ)) = p - 1 := by simpa using heq
      have h2 : (m : ℚ) + 1 ≤ (v.length : ℚ) := by exact_mod_cast Nat.succ_le_of_lt hm
      linarith
    rw [findIdxFinite_none _ hall] at hx
    exact hall x hx

/-- `ema` of an all-NaN series is all-NaN. -/
theorem ema_allnan_input (v : List JNum) (p : ℚ) (hall : ∀ x ∈ v, x = JNum.nan) :
    ∀ x ∈ ema v p, x = JNum.nan := by
  intro x hx
  by_cases hp : p ≤ 0
  · simp [ema_nonpos v p hp] at hx
  · unfold ema at hx
    rw [if_neg hp] at hx
    dsimp only at hx
    have h1 : ∀ y ∈ emaPass1go p (2 / (p + 1)) v 0 0 .nan, y = JNum.nan :=
      emaPass1go_allnan_input p (2 / (p + 1)) v 0 0 .nan hall
    rw [findIdxFinite_none _ h1] at hx
    exact h1 x hx

/-- Reading any index of an all-NaN list (default NaN) gives NaN. -/
theorem getD_nan_of_allnan (l : List JNum) (i : ℕ) (hall : ∀ x ∈ l, x = JNum.nan) :
    l.getD i .nan = JNum.nan := by
  rw [List.getD_eq_getElem?_getD]
  rcases h : l[i]? with _ | a
  · rfl
  · have := List.getElem?_mem h
    simp [hall a this]

/-- `lastFinite` of an all-NaN list is NaN. -/
theorem lastFinite_allnan (l : List JNum) (hall : ∀ x ∈ l, x = JNum.nan) :
    lastFinite l = JNum.nan := by
  unfold lastFinite
  rw [List.find?_eq_none.mpr]
  · rfl
  · intro x hx
    rw [List.mem_reverse] at hx
    simp [hall x hx]

/-- C6 amended: `macdLatest` returns the all-NaN triple whenever the input
length is below max(fast, slow) — not below max(fast, slow) + signal as
claimed (see the counterexample): with the shorter bound the longer EMA is
entirely undefined, so the macd line, its last finite value, the signal line
and the histogram are all NaN.  (The engine-level MACD operation separately
guards on max(fast, slow) + signal and returns all-NaN under it, see
`opMACD`.) -/
theorem C6_amended_macd_below_max :
    ∀ (values : List JNum) (fast slow sgnl : ℚ),
      (values.length : ℚ) < max fast slow →
      macdLatest values fast slow sgnl = (.nan, .nan, .nan) := by
  intro values fast slow sgnl h
  unfold macdLatest
  dsimp only
  by_cases hf : fast ≤ 0
  · rw [ema_nonpos values fast hf]
    simp
  by_cases hs : slow ≤ 0
  · rw [ema_nonpos values slow hs]
    simp
  have hfl : (ema values fast).length = values.length :=
    ema_length values fast (not_le.mp hf)
  have hsl : (ema values slow).length = values.length :=
    ema_length values slow (not_le.mp hs)
  by_cases hlen : values.length = 0
  · rw [if_pos (by rw [hfl, hsl, hlen]; simp)]
  rw [if_neg (by rw [hfl, hsl]; simpa using hlen)]
  have hmac : ∀ x ∈ (List.range (min (ema values fast).length (ema values slow).length)).map
      (fun i => jsub ((ema values fast).getD i .nan) ((ema values slow).getD i .nan)),
      x = JNum.nan := by
    intro x hx
    rw [List.mem_map] at hx
    obtain ⟨i, _, rfl⟩ := hx
    rcases le_total fast slow with hc | hc
    · have hshort : ∀ y ∈ ema values slow, y = JNum.nan := by
        refine ema_allnan_short values slow ?_
        calc (values.length : ℚ) < max fast slow := h
        _ = slow := max_eq_right hc
      rw [getD_nan_of_allnan _ i hshort]
      simp
    · have hshort : ∀ y ∈ ema values fast, y = JNum.nan := by
        refine ema_allnan_short values fast ?_
        calc (values.length : ℚ) < max fast slow := h
        _ = fast := max_eq_left hc
      rw [getD_nan_of_allnan _ i hshort]
      simp
  rw [lastFinite_allnan _ hmac, lastFinite_allnan _ (ema_allnan_input _ sgnl hmac)]
  simp

/-- C6 amended, witness: a length-1 input with slow = 2 is all-NaN. -/
theorem C6_amended_macd_below_max_witness :
    macdLatest [JNum.num 1] 1 2 1 = (.nan, .nan, .nan) :=
  C6_amended_macd_below_max [JNum.num 1] 1 2 1 (by norm_num)

/-- `last2Defined` fails exactly when no two consecutive finite values
exist. -/
theorem last2Defined_eq_none_iff :
    ∀ s : List JNum, last2Defined s = none ↔ hasAdjFinite s = false := by
  intro s
  induction s with
  | nil => simp [last2Defined, hasAdjFinite]
  | cons a t ih =>
    cases t with
    | nil => simp [last2Defined, hasAdjFinite]
    | cons b rest =>
      unfold last2Defined hasAdjFinite
      rcases hin : last2Defined (b :: rest) with _ | p
      · have hadj : hasAdjFinite (b :: rest) = false := ih.mp hin
        rw [hadj]
        by_cases hab : (jIsFinite a && jIsFinite b) = true
        · simp [hab]
        · simp [Bool.not_eq_true] at hab
          simp [hab]
      · have hadj : hasAdjFinite (b :: rest) = true := by
          by_contra hcon
          rw [Bool.not_eq_true] at hcon
          rw [ih.mpr hcon] at hin
          exact Option.noConfusion hin
        rw [hadj]
        simp

/-- `last2Defined` returns precisely the RIGHTMOST adjacent pair of
consecutive finite values: the list splits as `u ++ x :: y :: w` with x, y
finite and no adjacent finite pair from y on. -/
theorem last2Defined_eq_some_iff (s : List JNum) :
    ∀ x y : JNum, last2Defined s = some (x, y) ↔
      ∃ u w, s = u ++ x :: y :: w ∧ jIsFinite x = true ∧ jIsFinite y = true ∧
        hasAdjFinite (y :: w) = false := by
  induction s with
  | nil =>
    intro x y
    constructor
    · intro h
      exact Option.noConfusion h
    · rintro ⟨u, w, hs, -, -, -⟩
      have hl := congrArg List.length hs
      simp at hl
      omega
  | cons a t ih =>
    cases t with
    | nil =>
      intro x y
      constructor
      · intro h
        exact Option.noConfusion h
      · rintro ⟨u, w, hs, -, -, -⟩
        have hl := congrArg List.length hs
        simp at hl
        omega
    | cons b rest =>
      intro x y
      unfold last2Defined
      rcases hin : last2Defined (b :: rest) with _ | p
      · constructor
        · intro h
          by_cases hab : (jIsFinite a && jIsFinite b) = true
          · rw [if_pos hab] at h
            obtain ⟨hax, hby⟩ := Prod.mk.injEq .. ▸ Option.some.inj h
            rcases Bool.and_eq_true .. |>.mp hab with ⟨ha, hb⟩
            refine ⟨[], rest, ?_, hax ▸ ha, hby ▸ hb, ?_⟩
            · simp [hax, hby]
            · rw [← hby]
              exact (last2Defined_eq_none_iff (b :: rest)).mp hin
          · rw [if_neg hab] at h
            exact Option.noConfusion h
        · rintro ⟨u, w, hs, hx, hy, hnone⟩
          cases u with
          | nil =>
            simp only [List.nil_append, List.cons.injEq] at hs
            obtain ⟨hax, hby, hrw⟩ := hs
            subst hax
            subst hby
            subst hrw
            rw [if_pos (by simp [hx, hy])]
          | cons c u1 =>
            simp only [List.cons_append, List.cons.injEq] at hs
            obtain ⟨-, hrest⟩ := hs
            have : last2Defined (b :: rest) = some (x, y) :=
              (ih x y).mpr ⟨u1, w, hrest, hx, hy, hnone⟩
            rw [this] at hin
            exact Option.noConfusion hin
      · constructor
        · intro h
          have hp : p = (x, y) := Option.some.inj h
          subst hp
          obtain ⟨u, w, hs, hx, hy, hnone⟩ := (ih x y).mp hin
          exact ⟨a :: u, w, by simp [hs], hx, hy, hnone⟩
        · rintro ⟨u, w, hs, hx, hy, hnone⟩
          cases u with
          | nil =>
            simp only [List.nil_append, List.cons.injEq] at hs
            obtain ⟨hax, hby, hrw⟩ := hs
            have : last2Defined (b :: rest) = none := by
              refine (last2Defined_eq_none_iff (b :: rest)).mpr ?_
              rw [hby, hrw]
              exact hnone
            rw [this] at hin
            exact Option.noConfusion hin
          | cons c u1 =>
            simp only [List.cons_append, List.cons.injEq] at hs
            obtain ⟨-, hrest⟩ := hs
            have hsome : last2Defined (b :: rest) = some (x, y) :=
              (ih x y).mpr ⟨u1, w, hrest, hx, hy, hnone⟩
            rw [hsome] at hin
            rw [Option.some.inj hin]

/-- C3 amended: `crossUp(A, B)` is true iff EACH series separately has a
rightmost ADJACENT pair of consecutive finite values — (a0, a1) for A at its
own indices, (b0, b1) for B at its own indices, not necessarily common ones
as the claim stated (see the counterexample) — with `a0 ≤ b0` and
`a1 > b1`; it is false when either series lacks two consecutive finite
values.  `crossDown` analogously with `≥` and `<`. -/
theorem C3_amended_cross_per_series :
    ∀ A B : List JNum,
      (crossUp A B = true ↔
        ∃ a0 a1 b0 b1 uA wA uB wB,
          A = uA ++ a0 :: a1 :: wA ∧ jIsFinite a0 = true ∧ jIsFinite a1 = true ∧
            hasAdjFinite (a1 :: wA) = false ∧
          B = uB ++ b0 :: b1 :: wB ∧ jIsFinite b0 = true ∧ jIsFinite b1 = true ∧
            hasAdjFinite (b1 :: wB) = false ∧
          jle a0 b0 = true ∧ jgt a1 b1 = true) ∧
      (crossDown A B = true ↔
        ∃ a0 a1 b0 b1 uA wA uB wB,
          A = uA ++ a0 :: a1 :: wA ∧ jIsFinite a0 = true ∧ jIsFinite a1 = true ∧
            hasAdjFinite (a1 :: wA) = false ∧
          B = uB ++ b0 :: b1 :: wB ∧ jIsFinite b0 = true ∧ jIsFinite b1 = true ∧
            hasAdjFinite (b1 :: wB) = false ∧
          jge a0 b0 = true ∧ jlt a1 b1 = true) := by
  intro A B
  constructor
  · constructor
    · intro h
      unfold crossUp at h
      rcases hA : last2Defined A with _ | pa <;> rw [hA] at h
      · exact Bool.noConfusion h
      rcases hB : last2Defined B with _ | pb <;> rw [hB] at h
      · exact Bool.noConfusion h
      obtain ⟨a0, a1⟩ := pa
      obtain ⟨b0, b1⟩ := pb
      obtain ⟨hle1, hgt1⟩ := Bool.and_eq_true .. |>.mp h
      obtain ⟨uA, wA, hsA, haf0, haf1, hnA⟩ := (last2Defined_eq_some_iff A a0 a1).mp hA
      obtain ⟨uB, wB, hsB, hbf0, hbf1, hnB⟩ := (last2Defined_eq_some_iff B b0 b1).mp hB
      exact ⟨a0, a1, b0, b1, uA, wA, uB, wB, hsA, haf0, haf1, hnA, hsB, hbf0, hbf1,
        hnB, hle1, hgt1⟩
    · rintro ⟨a0, a1, b0, b1, uA, wA, uB, wB, hsA, haf0, haf1, hnA, hsB, hbf0, hbf1,
        hnB, hle1, hgt1⟩
      have hA : last2Defined A = some (a0, a1) :=
        (last2Defined_eq_some_iff A a0 a1).mpr ⟨uA, wA, hsA, haf0, haf1, hnA⟩
      have hB : last2Defined B = some (b0, b1) :=
        (last2Defined_eq_some_iff B b0 b1).mpr ⟨uB, wB, hsB, hbf0, hbf1, hnB⟩
      unfold crossUp
      rw [hA, hB]
      simp [hle1, hgt1]
  · constructor
    · intro h
      unfold crossDown at h
      rcases hA : last2Defined A with _ | pa <;> rw [hA] at h
      · exact Bool.noConfusion h
      rcases hB : last2Defined B with _ | pb <;> rw [hB] at h
      · exact Bool.noConfusion h
      obtain ⟨a0, a1⟩ := pa
      obtain ⟨b0, b1⟩ := pb
      obtain ⟨hge1, hlt1⟩ := Bool.and_eq_true .. |>.mp h
      obtain ⟨uA, wA, hsA, haf0, haf1, hnA⟩ := (last2Defined_eq_some_iff A a0 a1).mp hA
      obtain ⟨uB, wB, hsB, hbf0, hbf1, hnB⟩ := (last2Defined_eq_some_iff B b0 b1).mp hB
      exact ⟨a0, a1, b0, b1, uA, wA, uB, wB, hsA, haf0, haf1, hnA, hsB, hbf0, hbf1,
        hnB, hge1, hlt1⟩
    · rintro ⟨a0, a1, b0, b1, uA, wA, uB, wB, hsA, haf0, haf1, hnA, hsB, hbf0, hbf1,
        hnB, hge1, hlt1⟩
      have hA : last2Defined A = some (a0, a1) :=
        (last2Defined_eq_some_iff A a0 a1).mpr ⟨uA, wA, hsA, haf0, haf1, hnA⟩
      have hB : last2Defined B = some (b0, b1) :=
        (last2Defined_eq_some_iff B b0 b1).mpr ⟨uB, wB, hsB, hbf0, hbf1, hnB⟩
      unfold crossDown
      rw [hA, hB]
      simp [hge1, hlt1]

/-- After one `getSource`, any state with the same series table answers the
same call with the same array and no further state change. -/
theorem getSource_stable (cache : CacheView) (tf source : String) (s s2 : MemoState)
    (h2 : s2.seriesCache = ((getSource cache tf source s).2).seriesCache) :
    getSource cache tf source s2 = ((getSource cache tf source s).1, s2) := by
  unfold getSource at h2 ⊢
  dsimp only at h2 ⊢
  rcases h : alookup (MKey.src tf source) s.seriesCache with _ | v
  · rw [h] at h2
    dsimp only [withSeries_seriesCache] at h2
    rw [h2, alookup_cons_self]
  · rw [h] at h2
    dsimp only at h2
    rw [h2, h]

/-- `getSource` touches only the series table. -/
theorem getSource_numCache (cache : CacheView) (tf source : String) (s : MemoState) :
    ((getSource cache tf source s).2).numCache = s.numCache := by
  unfold getSource
  dsimp only
  rcases h : alookup (MKey.src tf source) s.seriesCache with _ | v <;> rfl

/-- Repeating an EMA/SMA/WMA call returns the first call's value. -/
theorem opMA_repeat (cache : CacheView) (opName : String)
    (kernel : List JNum → ℚ → List JNum) (tf source : String) (length : ℚ)
    (s : MemoState) :
    (opMA cache opName kernel tf source length
      ((opMA cache opName kernel tf source length s).2)).1 =
    (opMA cache opName kernel tf source length s).1 := by
  unfold opMA
  dsimp only
  have hst : ∀ s2 : MemoState,
      s2.seriesCache = ((getSource cache tf source s).2).seriesCache →
      getSource cache tf source s2 = ((getSource cache tf source s).1, s2) :=
    fun s2 h2 => getSource_stable cache tf source s s2 h2
  by_cases hg : (getSource cache tf source s).1.length < coerceN length
  · rw [if_pos hg]
    dsimp only
    rw [hst ((getSource cache tf source s).2) rfl]
    dsimp only
    rw [if_pos hg]
  · rw [if_neg hg]
    rcases h : alookup (MKey.ma tf opName source (coerceN length))
        ((getSource cache tf source s).2).indCache with _ | arr
    · dsimp only
      rw [hst (withInd (MKey.ma tf opName source (coerceN length))
        (kernel (getSource cache tf source s).1 ((coerceN length : ℕ) : ℚ))
        ((getSource cache tf source s).2)) rfl]
      dsimp only
      rw [if_neg hg, withInd_indCache, alookup_cons_self]
    · dsimp only
      rw [hst ((getSource cache tf source s).2) rfl]
      dsimp only
      rw [if_neg hg, h]

/-- Repeating an RSI call returns the first call's value. -/
theorem opRSI_repeat (cache : CacheView) (tf source : String) (period : ℚ)
    (s : MemoState) :
    (opRSI cache tf source period ((opRSI cache tf source period s).2)).1 =
    (opRSI cache tf source period s).1 := by
  unfold opRSI
  dsimp only
  rcases h : alookup (MKey.rsiK tf source (coerceN period)) s.numCache with _ | hit
  · dsimp only
    rw [show (withNum (MKey.rsiK tf source (coerceN period))
      (rsi (getSource cache tf source s).1 ((coerceN period : ℕ) : ℚ))
      ((getSource cache tf source s).2)).numCache =
      (MKey.rsiK tf source (coerceN period),
        rsi (getSource cache tf source s).1 ((coerceN period : ℕ) : ℚ)) ::
        ((getSource cache tf source s).2).numCache from rfl]
    rw [alookup_cons_self]
  · dsimp only
    rw [h]

/-- Repeating an ATR call returns the first call's value (including the
uncached missing-series NaN path, which leaves the state unchanged). -/
theorem opATR_repeat (cache : CacheView) (tf : String) (period : ℚ) (s : MemoState) :
    (opATR cache tf period ((opATR cache tf period s).2)).1 =
    (opATR cache tf period s).1 := by
  unfold opATR
  dsimp only
  rcases h : alookup (MKey.atrK tf (coerceN period)) s.numCache with _ | hit
  · rcases hc : cache tf with _ | series
    · dsimp only
      rw [h]
    · dsimp only
      rw [withNum_numCache, alookup_cons_self]
  · dsimp only
    rw [h]

/-- Repeating a MACD call returns the first call's value. -/
theorem opMACD_repeat (cache : CacheView) (tf source : String) (fast slow sgnl : ℚ)
    (s : MemoState) :
    (opMACD cache tf source fast slow sgnl
      ((opMACD cache tf source fast slow sgnl s).2)).1 =
    (opMACD cache tf source fast slow sgnl s).1 := by
  unfold opMACD
  dsimp only
  rcases h : alookup (MKey.macdK tf source (coerceN fast) (coerceN slow) (coerceN sgnl))
      s.objCache with _ | hit
  · dsimp only
    rw [withObj_objCache, alookup_cons_self]
  · dsimp only
    rw [h]

/-- Repeating a BBANDS call returns the first call's value. -/
theorem opBBANDS_repeat (sqrtFn : ℚ → ℚ) (cache : CacheView) (tf source : String)
    (length mult : ℚ) (s : MemoState) :
    (opBBANDS sqrtFn cache tf source length mult
      ((opBBANDS sqrtFn cache tf source length mult s).2)).1 =
    (opBBANDS sqrtFn cache tf source length mult s).1 := by
  unfold opBBANDS
  dsimp only
  rcases h : alookup (MKey.bbK tf source (coerceN length) mult) s.objCache with _ | hit
  · dsimp only
    rw [withObj_objCache, alookup_cons_self]
  · dsimp only
    rw [h]

/-- Repeating a VWAP call returns the first call's value (including the two
uncached NaN paths). -/
theorem opVWAP_repeat (cache : CacheView) (tf source : String) (s : MemoState) :
    (opVWAP cache tf source ((opVWAP cache tf source s).2)).1 =
    (opVWAP cache tf source s).1 := by
  unfold opVWAP
  dsimp only
  have hst : ∀ s2 : MemoState,
      s2.seriesCache = ((getSource cache tf source s).2).seriesCache →
      getSource cache tf source s2 = ((getSource cache tf source s).1, s2) :=
    fun s2 h2 => getSource_stable cache tf source s s2 h2
  rcases h : alookup (MKey.vwapK tf source) s.numCache with _ | hit
  · rcases hc : cache tf with _ | series
    · dsimp only
      rw [h]
    · dsimp only
      by_cases hlen : min ((getSource cache tf source s).1.length)
          series.volumes.length = 0
      · rw [if_pos hlen]
        dsimp only
        rw [show ((getSource cache tf source s).2).numCache = s.numCache from
          getSource_numCache cache tf source s, h]
        dsimp only
        rw [hst ((getSource cache tf source s).2) rfl]
        dsimp only
        rw [if_pos hlen]
      · rw [if_neg hlen]
        dsimp only
        rw [withNum_numCache, alookup_cons_self]
  · dsimp only
    rw [h]

/-- Repeating a BREAKOUT_UP call returns the first call's value. -/
theorem opBreakoutUp_repeat (cache : CacheView) (tf source : String) (lookback : ℚ)
    (level : Option JNum) (s : MemoState) :
    (opBreakoutUp cache tf source lookback level
      ((opBreakoutUp cache tf source lookback level s).2)).1 =
    (opBreakoutUp cache tf source lookback level s).1 := by
  unfold opBreakoutUp
  dsimp only
  rw [getSource_stable cache tf source s ((getSource cache tf source s).2) rfl]

/-- Repeating a BREAKOUT_DOWN call returns the first call's value. -/
theorem opBreakoutDown_repeat (cache : CacheView) (tf source : String) (lookback : ℚ)
    (level : Option JNum) (s : MemoState) :
    (opBreakoutDown cache tf source lookback level
      ((opBreakoutDown cache tf source lookback level s).2)).1 =
    (opBreakoutDown cache tf source lookback level s).1 := by
  unfold opBreakoutDown
  dsimp only
  rw [getSource_stable cache tf source s ((getSource cache tf source s).2) rfl]

/-- C8: within one capability object (one `createIndicators` invocation
scope), calling any indicator operation twice with identical parameters
against an unchanged cache returns the same value both times — the second
call is served from the memo tables, or recomputes identically on the
deterministic uncached paths. -/
theorem C8_repeat_call_same_value :
    ∀ (sqrtFn : ℚ → ℚ) (cache : CacheView) (op : OpCall) (s : MemoState),
      (runOp sqrtFn cache op ((runOp sqrtFn cache op s).2)).1 =
      (runOp sqrtFn cache op s).1 := by
  intro sqrtFn cache op s
  cases op with
  | emaOp tf source length =>
    exact congrArg OpResult.scalar (opMA_repeat cache "EMA" ema tf source length s)
  | smaOp tf source length =>
    exact congrArg OpResult.scalar (opMA_repeat cache "SMA" sma tf source length s)
  | wmaOp tf source length =>
    exact congrArg OpResult.scalar (opMA_repeat cache "WMA" wma tf source length s)
  | rsiOp tf source period =>
    exact congrArg OpResult.scalar (opRSI_repeat cache tf source period s)
  | atrOp tf period =>
    exact congrArg OpResult.scalar (opATR_repeat cache tf period s)
  | macdOp tf source fast slow sgnl =>
    exact congrArg OpResult.triple (opMACD_repeat cache tf source fast slow sgnl s)
  | bbandsOp tf source length mult =>
    exact congrArg OpResult.triple (opBBANDS_repeat sqrtFn cache tf source length mult s)
  | vwapOp tf source =>
    exact congrArg OpResult.scalar (opVWAP_repeat cache tf source s)
  | breakoutUpOp tf source lookback level =>
    exact congrArg OpResult.flag (opBreakoutUp_repeat cache tf source lookback level s)
  | breakoutDownOp tf source lookback level =>
    exact congrArg OpResult.flag (opBreakoutDown_repeat cache tf source lookback level s)
  | emaCrossUpOp tf fast slow => rfl
  | smaCrossUpOp tf fast slow => rfl
  | macdCrossUpOp tf fast slow sgnl => rfl
  | emaCrossDownOp tf fast slow => rfl
